import Mathlib

/-!
Verification of the Proof Helper Engine of the TON-SDK light client
(`ton_client/src/proofs/engine.rs`).

The definitions below are a shallow embedding of the functions of
`ProofHelperEngineImpl`.  JSON values returned by the indexer are modelled by
the `Row` structure carrying exactly the fields the engine reads (a field is
`none` when it is absent or not an integer, mirroring `as_u64()` /
`as_str()` returning `None`); opaque blobs (BoCs), hashes and the remainder
of a JSON object are modelled by natural numbers.  `u32` arithmetic that can
wrap is written with an explicit `% 4294967296` (release-mode Rust wraps;
`4294967296 = 2^32`).  Storage writes performed by an operation are returned
explicitly as a list of key/value pairs so that theorems can speak about
what is persisted.
-/

namespace TonSdkProofs

/-- Modulus of `u32` arithmetic. -/
def u32Size : Nat := 4294967296

/-- A row of an indexer (DApp server) query result, restricted to the fields
the proof engine ever reads: `seq_no`, `gen_utime`, `boc`,
`prev_ref.file_hash`.  The `payload` field stands for the rest of the JSON
object and makes distinct rows distinguishable. -/
structure Row where
  seq_no : Option Nat
  gen_utime : Option Nat
  boc : Option Nat
  prev_file_hash : Option Nat
  payload : Nat
deriving DecidableEq, Repr, Inhabited

/-- Failure modes of the row-preprocessing and query helpers.
`panicIndexOutOfBounds` models the Rust panic raised by
`result.len() - 1` / `result[last_index]` on an empty vector. -/
inductive PErr where
  | malformedSeqNo
  | malformedGenUtime
  | malformedFileHash
  | malformedBoc
  | mcBlockNotFound
  | panicIndexOutOfBounds
deriving DecidableEq, Repr

/-- Loop body of `preprocess_query_result` (engine.rs:111-133), written as
structural recursion over the remaining rows.  The accumulator carries the
`result` vector and the `last_seq_no` / `last_gen_utime` mutables, which the
Rust code initializes to `0`.  On a repeated `seq_no` with larger
`gen_utime` the code executes `let last_index = result.len() - 1;
result[last_index].1 = block;`, which panics when `result` is empty. -/
def preprocessGo : List Row → List (Nat × Row) → Nat → Nat → Except PErr (List (Nat × Row))
  | [], result, _, _ => .ok result
  | block :: rest, result, last_seq_no, last_gen_utime =>
    match block.seq_no with
    | none => .error .malformedSeqNo
    | some sv =>
      match block.gen_utime with
      | none => .error .malformedGenUtime
      | some gv =>
        let seq_no := sv % u32Size
        let gen_utime := gv % u32Size
        if seq_no ≠ last_seq_no then
          preprocessGo rest (result ++ [(seq_no, block)]) seq_no gen_utime
        else if gen_utime > last_gen_utime then
          match result.getLast? with
          | none => .error .panicIndexOutOfBounds
          | some last => preprocessGo rest (result.dropLast ++ [(last.1, block)]) last_seq_no gen_utime
        else
          preprocessGo rest result last_seq_no last_gen_utime

/-- Embedding of `ProofHelperEngineImpl::preprocess_query_result`
(engine.rs:111-133). -/
def preprocess_query_result (blocks : List Row) : Except PErr (List (Nat × Row)) :=
  preprocessGo blocks [] 0 0

/-- Parsed `seq_no` of a row as the Rust code computes it
(`as_u64()? as u32`); `0` stands in for the unused default of a malformed
row. -/
def seqValue (r : Row) : Nat :=
  (r.seq_no.getD 0) % u32Size

/-- Parsed `gen_utime` of a row (`as_u64()? as u32`). -/
def genValue (r : Row) : Nat :=
  (r.gen_utime.getD 0) % u32Size

/-- The row `preprocess_query_result` retains out of a run of rows sharing
one `seq_no`: starting from `first`, a later row replaces the current
choice exactly when its `gen_utime` is strictly larger — i.e. the first row
of the run attaining the maximal `gen_utime`. -/
def bestRow (first : Row) (rest : List Row) : Row :=
  rest.foldl (fun best b => if genValue b > genValue best then b else best) first

/-- Retained row of a run (`default` for the empty run, which never
occurs). -/
def bestRun : List Row → Row
  | [] => default
  | first :: rest => bestRow first rest

/-! ### `add_file_hashes` (engine.rs:397-450) -/

/-- The JSON object of a key-block proof as held in the `proofs_sorted`
slice of `add_file_hashes`: the loop writes its `file_hash` field; the rest
of the object is opaque. -/
structure PValue where
  file_hash : Option Nat
  payload : Nat
deriving DecidableEq, Repr, Inhabited

/-- Failure modes of `add_file_hashes`. -/
inductive AErr where
  | preprocess (e : PErr)
  | moreBlocksThanExpected
  | blockMissed
  | sliceLengthMismatch
deriving DecidableEq, Repr

/-- Body of the `for i in 0..blocks.len()` loop of `add_file_hashes`
(engine.rs:431-444): positions are matched pairwise; the returned
next-block at position `i` must have `seq_no` equal to
`expected[i].0 + 1` (u32 addition), and on success
`expected[i].1["file_hash"]` is set to the block's `prev_ref.file_hash`.
Called with lists of equal length. -/
def attachRound : List (Nat × PValue) → List (Nat × Row) → Except AErr (List (Nat × PValue))
  | [], [] => .ok []
  | e :: es, b :: bs =>
    if b.1 ≠ (e.1 + 1) % u32Size then
      .error .blockMissed
    else
      (attachRound es bs).map (fun rest => (e.1, { e.2 with file_hash := b.2.prev_file_hash }) :: rest)
  | _, _ => .error .sliceLengthMismatch

/-- The `while proofs_sorted.len() > 0` loop of `add_file_hashes`
(engine.rs:401-447), as fuel-indexed recursion: `none` means the fuel ran
out before the loop finished (the loop body itself always runs in finite
time, so `(∃ fuel r, … = some r)` is exactly termination of the Rust
loop).  `oracle` maps the `seq_no in [...]` filter of the indexer query to
the raw rows the DApp server returns for it; `done` is the already
processed prefix of the slice (the part split off by `split_at_mut`), and
the final `some (.ok _)` result is the whole mutated slice. -/
def add_file_hashes_go (oracle : List Nat → List Row) :
    Nat → List (Nat × PValue) → List (Nat × PValue) → Option (Except AErr (List (Nat × PValue)))
  | 0, _, _ => none
  | fuel + 1, done, proofs_sorted =>
    if proofs_sorted.isEmpty then
      some (.ok done)
    else
      match preprocess_query_result (oracle (proofs_sorted.map (fun p => (p.1 + 1) % u32Size))) with
      | .error e => some (.error (.preprocess e))
      | .ok blocks =>
        if proofs_sorted.length < blocks.length then
          some (.error .moreBlocksThanExpected)
        else
          match attachRound (proofs_sorted.take blocks.length) blocks with
          | .error e => some (.error e)
          | .ok attached => add_file_hashes_go oracle fuel (done ++ attached) (proofs_sorted.drop blocks.length)

/-- Embedding of `ProofHelperEngineImpl::add_file_hashes`
(engine.rs:397-450), with explicit fuel. -/
def add_file_hashes (oracle : List Nat → List Row) (fuel : Nat)
    (proofs_sorted : List (Nat × PValue)) : Option (Except AErr (List (Nat × PValue))) :=
  add_file_hashes_go oracle fuel [] proofs_sorted

/-- Termination of the `add_file_hashes` loop on the given input: some
amount of fuel suffices to drive it to a result. -/
def add_file_hashes_terminates (oracle : List Nat → List Row)
    (proofs_sorted : List (Nat × PValue)) : Prop :=
  ∃ fuel r, add_file_hashes oracle fuel proofs_sorted = some r

/-- Progress property of an indexer for `add_file_hashes` on `proofs`: for
every non-empty suffix of the proof list the loop can reach, the
deduplicated response is non-empty, no longer than the remaining proofs,
and positionally matched (the i-th returned block's `seq_no` is the i-th
remaining proof's `seq_no + 1`). -/
def oracleProgress (oracle : List Nat → List Row) (proofs : List (Nat × PValue)) : Prop :=
  ∀ k, proofs.drop k ≠ [] →
    ∃ bs, preprocess_query_result
        (oracle ((proofs.drop k).map (fun p => (p.1 + 1) % u32Size))) = .ok bs ∧
      bs ≠ [] ∧ bs.length ≤ (proofs.drop k).length ∧
      List.Forall₂ (fun p b => b.1 = (p.1 + 1) % u32Size)
        ((proofs.drop k).take bs.length) bs

/-! ### Trust-extension branch of `load_key_block_proof` (engine.rs:805-847) -/

/-- Which stored right boundary a downloaded proof chain bumps through its
`on_store_block` hook: the zerostate one (`update_zs_right_bound`) or the
trusted-anchor one (`update_trusted_block_right_bound`). -/
inductive Boundary where
  | zerostate
  | trusted
deriving DecidableEq, Repr

/-- A call `download_proof_chain(start..stop, hook)` issued by
`load_key_block_proof`: the half-open Rust range `start..stop` of
masterchain seq_nos together with the boundary its hook bumps. -/
structure ChainRequest where
  start : Nat
  stop : Nat
  bump : Boundary
deriving DecidableEq, Repr

/-- Embedding of the branch cascade of `load_key_block_proof`
(engine.rs:828-846), reached when no `proof_mc_{n}` is cached and
`mc_seq_no ≠ trusted_id.seq_no`, right after
`require_trusted_key_block_proof`.  Every `+ 1` is u32 addition.  `none`
models the final `unreachable!` arm (a panic). -/
def selectProofChain (mc_seq_no trusted_seq_no zs_right_bound trusted_right_bound : Nat) :
    Option ChainRequest :=
  if mc_seq_no > trusted_right_bound then
    some ⟨(trusted_right_bound + 1) % u32Size, (mc_seq_no + 1) % u32Size, .trusted⟩
  else if mc_seq_no < trusted_seq_no ∧ mc_seq_no > zs_right_bound then
    some ⟨(zs_right_bound + 1) % u32Size, (mc_seq_no + 1) % u32Size, .zerostate⟩
  else if mc_seq_no ≤ zs_right_bound then
    some ⟨1, (mc_seq_no + 1) % u32Size, .zerostate⟩
  else if mc_seq_no > trusted_seq_no ∧ mc_seq_no ≤ trusted_right_bound then
    some ⟨(trusted_seq_no + 1) % u32Size, (mc_seq_no + 1) % u32Size, .trusted⟩
  else
    none

/-- The downloaded chain as the specification states it (spec §4.6): the
half-open range `(T_right, n]` is `[T_right + 1, n + 1)` over the integers,
with no u32 wrap-around; likewise for the other three branches. -/
def claimSelect (n trusted_seq_no zs_right_bound trusted_right_bound : Nat) :
    Option ChainRequest :=
  if n > trusted_right_bound then
    some ⟨trusted_right_bound + 1, n + 1, .trusted⟩
  else if n < trusted_seq_no ∧ n > zs_right_bound then
    some ⟨zs_right_bound + 1, n + 1, .zerostate⟩
  else if n ≤ zs_right_bound then
    some ⟨1, n + 1, .zerostate⟩
  else if n > trusted_seq_no ∧ n ≤ trusted_right_bound then
    some ⟨trusted_seq_no + 1, n + 1, .trusted⟩
  else
    none

/-! ### Shard chain walk of `check_shard_block` (engine.rs:665-777) -/

/-- The data `check_shard_block` reads out of one deserialized shard block
BoC: `repr_hash` of the root cell (`root_hash`), the header's `seq_no`, and
`prev_ref.prev1()` as a `(seq_no, root_hash)` back-pointer.  Hashes are
modelled as naturals. -/
structure ShardBlockInfo where
  seq_no : Nat
  root_hash : Nat
  prev_seq_no : Nat
  prev_root_hash : Nat
deriving DecidableEq, Repr, Inhabited

/-- Failure modes of the shard-chain part of `check_shard_block`. -/
inductive ShardErr where
  | topRootHashMismatch
  | seqNoMismatch
  | rootHashMismatch
  | fetchFailed
deriving DecidableEq, Repr

/-- Embedding of the `check_with_last_prev_ref` closure
(engine.rs:721-743). -/
def check_with_last_prev_ref (seq_no root_hash last_prev_ref_seq_no last_prev_ref_root_hash : Nat) :
    Except ShardErr Unit :=
  if seq_no ≠ last_prev_ref_seq_no then
    .error .seqNoMismatch
  else if root_hash ≠ last_prev_ref_root_hash then
    .error .rootHashMismatch
  else
    .ok ()

/-- The `for boc in shard_chain.iter().rev()` loop (engine.rs:745-763): the
list argument is already reversed, the pair is the running
`(last_prev_ref_seq_no, last_prev_ref_root_hash)`, and the returned pair is
its final value; the `?` on the closure call propagates the first error. -/
def shardWalk : List ShardBlockInfo → Nat × Nat → Except ShardErr (Nat × Nat)
  | [], pair => .ok pair
  | b :: rest, pair =>
    match check_with_last_prev_ref b.seq_no b.root_hash pair.1 pair.2 with
    | .error e => .error e
    | .ok _ => shardWalk rest (b.prev_seq_no, b.prev_root_hash)

/-- Embedding of the tail of `check_shard_block` (engine.rs:704-772), from
the point where `extract_top_shard_block` returned `(top_seq_no,
top_root_hash)` for the queried block's shard.  `info` is the queried
block's parsed data; `fetch lo hi` stands for
`query_shard_block_bocs(shard, lo..hi)` followed by the per-BoC
deserialization, and is invoked exactly on
`(info.seq_no() + 1)..(top_seq_no + 1)` (u32 additions). -/
def check_shard_block_from_anchor
    (fetch : Nat → Nat → Except ShardErr (List ShardBlockInfo))
    (info : ShardBlockInfo) (top_seq_no top_root_hash : Nat) : Except ShardErr Unit :=
  if top_seq_no = info.seq_no then
    if top_root_hash ≠ info.root_hash then
      .error .topRootHashMismatch
    else
      .ok ()
  else
    match fetch ((info.seq_no + 1) % u32Size) ((top_seq_no + 1) % u32Size) with
    | .error e => .error e
    | .ok shard_chain =>
      match shardWalk shard_chain.reverse (top_seq_no, top_root_hash) with
      | .error e => .error e
      | .ok pair => check_with_last_prev_ref info.seq_no info.root_hash pair.1 pair.2

/-- The reverse walk exactly as claim C2 words it: carry a running
`(prev_seq_no, prev_root_hash)` pair, fail on any block whose own `seq_no`
or root hash differs from the running pair, replace the pair with the
block's `prev_ref`, and finally require the running pair to equal the
queried block's `(seq_no, root_hash)`. -/
def claimReverseWalk (final : Nat × Nat) : List ShardBlockInfo → Nat × Nat → Bool
  | [], pair => decide (pair = final)
  | b :: rest, pair =>
    decide (b.seq_no = pair.1) && decide (b.root_hash = pair.2)
      && claimReverseWalk final rest (b.prev_seq_no, b.prev_root_hash)

/-- Success of shard-block verification as claim C2 describes it. -/
def claimShardSuccess (info : ShardBlockInfo) (top_seq_no top_root_hash : Nat)
    (shard_chain : List ShardBlockInfo) : Bool :=
  if top_seq_no = info.seq_no then
    decide (top_root_hash = info.root_hash)
  else
    claimReverseWalk (info.seq_no, info.root_hash) shard_chain.reverse (top_seq_no, top_root_hash)

/-! ### `load_zerostate` (engine.rs:782-803) -/

/-- Failure modes of `load_zerostate` after the zerostates query succeeded. -/
inductive ZsErr where
  | zerostateHashMismatch
  | deserializationFailed
deriving DecidableEq, Repr

/-- Result of an engine operation together with the storage writes it
performed, in order. -/
structure Outcome (ε α : Type) where
  result : Except ε α
  writes : List (String × Nat)
deriving Repr

/-- Embedding of `load_zerostate` (engine.rs:782-803) from the point where
the cache lookup and, on a miss, `query_zerostate_boc` have completed:
`cached` is the blob under the `zerostate` key, `queried` the BoC fetched
from the indexer, `hash` stands for `get_boc_hash`, `expected` for
`NetworkUID.zerostate_root_hash`, and `construct` for
`ShardStateUnsplit::construct_from_bytes`. -/
def load_zerostate (hash : Nat → Nat) (construct : Nat → Except ZsErr Nat)
    (cached : Option Nat) (queried expected : Nat) : Outcome ZsErr Nat :=
  match cached with
  | some boc => { result := construct boc, writes := [] }
  | none =>
    let actual_hash := hash queried
    if actual_hash ≠ expected then
      { result := .error .zerostateHashMismatch, writes := [] }
    else
      { result := construct queried, writes := [("zerostate", queried)] }

/-! ### Bounds metadata (engine.rs:197-233) -/

/-- Embedding of `update_metadata_value_u32` (engine.rs:197-207): the value
written back for a given prior stored value (`none` when the key is absent
or not exactly 4 bytes). -/
def update_metadata_value_u32 (prior : Option Nat) (value : Nat)
    (process_value : Nat → Nat → Nat) : Nat :=
  match prior with
  | none => value
  | some prev => process_value prev value

/-- Embedding of `update_zs_right_bound` (engine.rs:214-216): the engine
instantiates `process_value` with `std::cmp::max`. -/
def update_zs_right_bound (prior : Option Nat) (seq_no : Nat) : Nat :=
  update_metadata_value_u32 prior seq_no max

/-- Embedding of `update_trusted_block_right_bound` (engine.rs:223-233);
the storage key is per trusted seq_no, the stored cell behaves the same. -/
def update_trusted_block_right_bound (prior : Option Nat) (right_bound_seq_no : Nat) : Nat :=
  update_metadata_value_u32 prior right_bound_seq_no max

/-- Stored content of one right-boundary cell after a sequence of update
calls against it, starting from `init` (`none` = key absent). -/
def boundAfter (init : Option Nat) (values : List Nat) : Option Nat :=
  values.foldl (fun st v => some (update_zs_right_bound st v)) init

/-! ### Trusted key-block proof acquisition (engine.rs:452-487) -/

/-- A `(seq_no, root_hash)` block identifier; used both for the hard-coded
trusted anchor (`TrustedMcBlockId`) and for the `id` of a parsed
`BlockProof`. -/
structure BlockId where
  seq_no : Nat
  root_hash : Nat
deriving DecidableEq, Repr

/-- A parsed `BlockProof` as far as `download_trusted_key_block_proof`
inspects it: its `id` plus an opaque remainder. -/
structure ProofModel where
  id : BlockId
  payload : Nat
deriving DecidableEq, Repr

/-- Failure modes of trusted key-block proof acquisition. -/
inductive TErr where
  | parseFailed
  | trustedSeqNoMismatch
  | trustedRootHashMismatch
deriving DecidableEq, Repr

/-- Embedding of `mc_proof_key` (engine.rs:79-81). -/
def mc_proof_key (mc_seq_no : Nat) : String :=
  "proof_mc_" ++ toString mc_seq_no

/-- Embedding of `download_trusted_key_block_proof` (engine.rs:452-476)
from the point where `query_mc_proof(id.seq_no)` returned `proof_json`:
`parse` stands for `BlockProof::from_value`; on success the JSON is
persisted under `proof_mc_{id.seq_no}`.  The storage write records the
JSON value (modelled by the same natural). -/
def download_trusted_key_block_proof (parse : Nat → Except TErr ProofModel)
    (id : BlockId) (proof_json : Nat) : Outcome TErr ProofModel :=
  match parse proof_json with
  | .error e => { result := .error e, writes := [] }
  | .ok proof =>
    if proof.id.seq_no ≠ id.seq_no then
      { result := .error .trustedSeqNoMismatch, writes := [] }
    else if proof.id.root_hash ≠ id.root_hash then
      { result := .error .trustedRootHashMismatch, writes := [] }
    else
      { result := .ok proof, writes := [(mc_proof_key id.seq_no, proof_json)] }

/-- Embedding of `require_trusted_key_block_proof` (engine.rs:478-487):
`cached` is the JSON under `proof_mc_{id.seq_no}`; on a hit it is parsed
and returned with no further checks and no writes, otherwise the proof is
downloaded.  No signature verification (`check_proof`) is involved on
either path. -/
def require_trusted_key_block_proof (parse : Nat → Except TErr ProofModel)
    (id : BlockId) (cached : Option Nat) (proof_json : Nat) : Outcome TErr ProofModel :=
  match cached with
  | some value => { result := parse value, writes := [] }
  | none => download_trusted_key_block_proof parse id proof_json

/-! ### Masterchain block file hash (engine.rs:256-329) -/

/-- Embedding of `query_file_hash_from_next_block` (engine.rs:256-279):
`rows` is the indexer response for the mc block with seq_no
`mc_seq_no + 1`; an empty (deduplicated) response yields `none`, otherwise
the first row must carry `prev_ref.file_hash`. -/
def query_file_hash_from_next_block (rows : List Row) : Except PErr (Option Nat) := do
  let blocks ← preprocess_query_result rows
  match blocks with
  | [] => .ok none
  | b :: _ =>
    match b.2.prev_file_hash with
    | some file_hash => .ok (some file_hash)
    | none => .error .malformedFileHash

/-- Embedding of `download_mc_boc` (engine.rs:281-312): serve the cached
`block_mc_{N}` blob if present, otherwise take the `boc` field of the first
row of the indexer response (`rows`), failing if the response is empty. -/
def download_mc_boc (cached : Option Nat) (rows : List Row) : Except PErr Nat :=
  match cached with
  | some boc => .ok boc
  | none => do
    let blocks ← preprocess_query_result rows
    match blocks with
    | [] => .error .mcBlockNotFound
    | b :: _ =>
      match b.2.boc with
      | some boc => .ok boc
      | none => .error .malformedBoc

/-- Embedding of `download_mc_boc_and_calc_file_hash` (engine.rs:314-321);
`calc_file_hash` stands for `UInt256::calc_file_hash`. -/
def download_mc_boc_and_calc_file_hash (calc_file_hash : Nat → Nat)
    (cached : Option Nat) (rows : List Row) : Except PErr Nat :=
  (download_mc_boc cached rows).map calc_file_hash

/-- Embedding of `query_mc_block_file_hash` (engine.rs:323-329):
`next_rows` is the indexer response for seq_no `mc_seq_no + 1`, `cached`
the cached BoC of block `mc_seq_no`, and `boc_rows` the indexer response
for block `mc_seq_no` itself. -/
def query_mc_block_file_hash (calc_file_hash : Nat → Nat)
    (next_rows : List Row) (cached : Option Nat) (boc_rows : List Row) : Except PErr Nat :=
  match query_file_hash_from_next_block next_rows with
  | .ok (some file_hash) => .ok file_hash
  | .ok none => download_mc_boc_and_calc_file_hash calc_file_hash cached boc_rows
  | .error e => .error e

/-! ## Theorems

Claim C1, amended (the original fails at `mc_seq_no = u32::MAX`; see the
counterexample below). -/

/-- C1 (amended): for a request `n` with no cached `proof_mc_{n}`, `n`
different from the trusted seq_no `T` and `n + 1` not overflowing `u32`,
the branch cascade of `load_key_block_proof` issues exactly the
`download_proof_chain` call the specification describes — `(T_right, n]`
bumping the trusted boundary when `n > T_right`, `(Z_right, n]` bumping the
zerostate boundary when `n < T` and `n > Z_right`, `[1, n]` bumping the
zerostate boundary when `n ≤ Z_right`, `(T, n]` bumping the trusted
boundary when `T < n ≤ T_right` — and no combination of `n`, `Z_right`,
`T_right` reaches the `unreachable!` arm. -/
theorem trust_extension_selects_claimed_chain (n T z t : Nat)
    (hne : n ≠ T) (hw : n + 1 < u32Size) :
    selectProofChain n T z t = claimSelect n T z t ∧
    (claimSelect n T z t).isSome = true := by
  have hmod : ∀ m : Nat, m ≤ n → (m + 1) % u32Size = m + 1 := fun m hm =>
    Nat.mod_eq_of_lt (lt_of_le_of_lt (Nat.succ_le_succ hm) hw)
  constructor
  · unfold selectProofChain claimSelect
    split_ifs with h1 h2 h3 h4
    · rw [hmod t (le_of_lt h1), hmod n le_rfl]
    · rw [hmod z (le_of_lt h2.2), hmod n le_rfl]
    · rw [hmod n le_rfl]
    · rw [hmod T (le_of_lt h4.1), hmod n le_rfl]
    · rfl
  · unfold claimSelect
    split_ifs with h1 h2 h3 h4
    · rfl
    · rfl
    · rfl
    · rfl
    · exact absurd (by omega : n = T) hne

/-- Witness for the amended C1 theorem at the spec's scenario S3
(`n = 103`, anchor 100, fresh bounds). -/
theorem trust_extension_selects_claimed_chain_witness :
    selectProofChain 103 100 0 100 = claimSelect 103 100 0 100 ∧
    (claimSelect 103 100 0 100).isSome = true :=
  trust_extension_selects_claimed_chain 103 100 0 100 (by decide) (by decide)

/-- Counterexample to C1 as stated: at `mc_seq_no = u32::MAX = 4294967295`
(anchor 100, fresh bounds) the code computes the wrapped range end
`(4294967295 + 1) % 2^32 = 0` and calls `download_proof_chain(101..0)` — an
empty range that fails immediately — whereas the claim requires downloading
the non-empty range `(100, 4294967295]`, i.e. `101..4294967296`. -/
theorem trust_extension_u32_wrap_counterexample :
    selectProofChain 4294967295 100 0 100 = some ⟨101, 0, .trusted⟩ ∧
    claimSelect 4294967295 100 0 100 = some ⟨101, 4294967296, .trusted⟩ ∧
    selectProofChain 4294967295 100 0 100 ≠ claimSelect 4294967295 100 0 100 := by
  refine ⟨rfl, rfl, ?_⟩
  decide

/-- C6: with the zerostate cache empty and the queried BoC hashing to a
value different from `NetworkUID.zerostate_root_hash`, `load_zerostate`
fails and writes nothing; and whenever it writes at all, the write is the
fetched BoC under the `zerostate` key and its hash equals the expected
value. -/
theorem load_zerostate_hash_mismatch_writes_nothing
    (hash : Nat → Nat) (construct : Nat → Except ZsErr Nat) (queried expected : Nat) :
    (hash queried ≠ expected →
      (load_zerostate hash construct none queried expected).result
          = .error .zerostateHashMismatch ∧
      (load_zerostate hash construct none queried expected).writes = []) ∧
    ((load_zerostate hash construct none queried expected).writes ≠ [] →
      hash queried = expected ∧
      (load_zerostate hash construct none queried expected).writes = [("zerostate", queried)]) := by
  unfold load_zerostate
  by_cases h : hash queried = expected <;> simp [h]

/-- Witness for C6: hash `id`, queried BoC `1`, expected hash `2`. -/
theorem load_zerostate_hash_mismatch_writes_nothing_witness :
    (load_zerostate id (fun b => .ok b) none 1 2).result = .error .zerostateHashMismatch ∧
    (load_zerostate id (fun b => .ok b) none 1 2).writes = [] :=
  (load_zerostate_hash_mismatch_writes_nothing id (fun b => .ok b) 1 2).1 (by decide)

/-- C7: `update_zs_right_bound` and `update_trusted_block_right_bound`
write `max(prior, value)` (and `value` when the prior value is absent), and
consequently the stored right boundary never decreases across any sequence
of update calls. -/
theorem right_bounds_monotone :
    (∀ p v, update_zs_right_bound (some p) v = max p v) ∧
    (∀ v, update_zs_right_bound none v = v) ∧
    (∀ p v, update_trusted_block_right_bound (some p) v = max p v) ∧
    (∀ v, update_trusted_block_right_bound none v = v) ∧
    (∀ init values v p q,
      boundAfter init values = some p →
      boundAfter init (values ++ [v]) = some q →
      p ≤ q) := by
  refine ⟨fun p v => rfl, fun v => rfl, fun p v => rfl, fun v => rfl, ?_⟩
  intro init values v p q hp hq
  rw [boundAfter, List.foldl_append] at hq
  rw [boundAfter] at hp
  rw [hp] at hq
  simp only [List.foldl_cons, List.foldl_nil] at hq
  simp only [update_zs_right_bound, update_metadata_value_u32, Option.some.injEq] at hq
  omega

/-- Witness for C7's monotonicity step: starting from an absent key, the
calls `update(2)` then `update(7)` store `2` then `7`, and `2 ≤ 7`. -/
theorem right_bounds_monotone_witness : (2 : Nat) ≤ 7 :=
  right_bounds_monotone.2.2.2.2 none [2] 7 2 7 (by decide) (by decide)

/-- C8: `require_trusted_key_block_proof` returns the parsed cached proof
when `proof_mc_{id.seq_no}` is present; otherwise the queried proof is
accepted — and persisted under `proof_mc_{id.seq_no}` — exactly when its
`id.seq_no` and `id.root_hash` equal the anchor's, with nothing written on
a mismatch and no signature validation on either path. -/
theorem require_trusted_key_block_proof_spec
    (parse : Nat → Except TErr ProofModel) (id : BlockId) (proof_json : Nat) :
    (∀ v, require_trusted_key_block_proof parse id (some v) proof_json
        = { result := parse v, writes := [] }) ∧
    (∀ proof, parse proof_json = .ok proof →
      (proof.id.seq_no ≠ id.seq_no ∨ proof.id.root_hash ≠ id.root_hash →
        (∃ e, (require_trusted_key_block_proof parse id none proof_json).result = .error e) ∧
        (require_trusted_key_block_proof parse id none proof_json).writes = []) ∧
      (proof.id.seq_no = id.seq_no → proof.id.root_hash = id.root_hash →
        require_trusted_key_block_proof parse id none proof_json
          = { result := .ok proof,
              writes := [(mc_proof_key id.seq_no, proof_json)] })) := by
  refine ⟨fun v => rfl, fun proof hparse => ?_⟩
  constructor
  · intro hmis
    unfold require_trusted_key_block_proof download_trusted_key_block_proof
    rw [hparse]
    rcases hmis with h | h
    · simp [h]
    · by_cases hs : proof.id.seq_no = id.seq_no <;> simp [hs, h]
  · intro hs hr
    unfold require_trusted_key_block_proof download_trusted_key_block_proof
    rw [hparse]
    simp [hs, hr]

/-- Witness for C8 at a matching anchor: the queried proof with id
`(100, 77)` is accepted against anchor `(100, 77)` and persisted under
`proof_mc_100`. -/
theorem require_trusted_key_block_proof_spec_witness :
    require_trusted_key_block_proof (fun j => .ok ⟨⟨100, 77⟩, j⟩) ⟨100, 77⟩ none 5
      = { result := .ok ⟨⟨100, 77⟩, 5⟩, writes := [(mc_proof_key 100, 5)] } :=
  ((require_trusted_key_block_proof_spec (fun j => .ok ⟨⟨100, 77⟩, j⟩) ⟨100, 77⟩ 5).2
    ⟨⟨100, 77⟩, 5⟩ rfl).2 rfl rfl

/-- C10: when the indexer has no masterchain block with seq_no
`mc_seq_no + 1` (the next-block query returns no rows),
`query_mc_block_file_hash` does not fail: it falls back to the BoC of block
`mc_seq_no` itself — cached or downloaded — and returns the file hash
computed from that BoC. -/
theorem query_mc_block_file_hash_fallback (calc_file_hash : Nat → Nat)
    (cached : Option Nat) (boc_rows : List Row) (boc : Nat)
    (h : download_mc_boc cached boc_rows = .ok boc) :
    query_mc_block_file_hash calc_file_hash [] cached boc_rows = .ok (calc_file_hash boc) := by
  unfold query_mc_block_file_hash query_file_hash_from_next_block
  unfold download_mc_boc_and_calc_file_hash
  rw [h]
  rfl

/-- Witness for C10 with the BoC of block `mc_seq_no` served from cache. -/
theorem query_mc_block_file_hash_fallback_witness :
    query_mc_block_file_hash Nat.succ [] (some 7) [] = .ok (Nat.succ 7) :=
  query_mc_block_file_hash_fallback Nat.succ (some 7) [] 7 rfl

/-- The code's reverse walk followed by the final check against the queried
block succeeds exactly when the claim's running-pair walk accepts. -/
lemma shardWalk_then_check_iff (q_seq q_hash : Nat) (l : List ShardBlockInfo) :
    ∀ pair : Nat × Nat,
      ((match shardWalk l pair with
        | .error e => .error e
        | .ok p => check_with_last_prev_ref q_seq q_hash p.1 p.2)
        = (.ok () : Except ShardErr Unit))
      ↔ claimReverseWalk (q_seq, q_hash) l pair = true := by
  induction l with
  | nil =>
    intro pair
    simp only [shardWalk, claimReverseWalk, check_with_last_prev_ref]
    split_ifs with h1 h2
    · simp only [decide_eq_true_eq, Prod.ext_iff]
      constructor
      · intro h
        exact h.elim
      · intro hc
        exact absurd hc.1.symm h1
    · simp only [decide_eq_true_eq, Prod.ext_iff]
      constructor
      · intro h
        exact h.elim
      · intro hc
        exact absurd hc.2.symm h2
    · simp only [ne_eq, not_not] at h1 h2
      simp only [decide_eq_true_eq, Prod.ext_iff]
      exact ⟨fun _ => ⟨h1.symm, h2.symm⟩, fun _ => trivial⟩
  | cons b rest ih =>
    intro pair
    simp only [shardWalk, claimReverseWalk, check_with_last_prev_ref]
    split_ifs with h1 h2
    · simp [h1]
    · simp [h2]
    · simp only [ne_eq, not_not] at h1 h2
      simp only [h1, h2, decide_eq_true_eq, Bool.and_eq_true]
      constructor
      · intro h
        exact ⟨⟨trivial, trivial⟩, ((ih (b.prev_seq_no, b.prev_root_hash)).mp h)⟩
      · intro h
        exact (ih (b.prev_seq_no, b.prev_root_hash)).mpr h.2

/-- C2: from the anchor masterchain block committing top shard block
`(top_seq_no, top_root_hash)` for the queried block's shard, the shard
verification succeeds exactly as the claim states: when
`top_seq_no = info.seq_no` it succeeds iff the top root hash equals the
queried block's root hash; otherwise it fetches shard blocks for
`[info.seq_no + 1, top_seq_no + 1)`, walks them in reverse carrying a
running `(prev_seq_no, prev_root_hash)` pair initialized to the top pair,
fails on any block disagreeing with the running pair, replaces the pair
with the block's `prev_ref`, and succeeds iff the final pair equals the
queried block's `(seq_no, root_hash)`. -/
theorem check_shard_block_matches_claim
    (fetch : Nat → Nat → Except ShardErr (List ShardBlockInfo))
    (info : ShardBlockInfo) (top_seq_no top_root_hash : Nat)
    (shard_chain : List ShardBlockInfo)
    (hfetch : fetch ((info.seq_no + 1) % u32Size) ((top_seq_no + 1) % u32Size) = .ok shard_chain)
    (_hge : info.seq_no ≤ top_seq_no) :
    check_shard_block_from_anchor fetch info top_seq_no top_root_hash = .ok ()
      ↔ claimShardSuccess info top_seq_no top_root_hash shard_chain = true := by
  unfold check_shard_block_from_anchor claimShardSuccess
  split_ifs with htop hr
  · simp [hr]
  · simp only [ne_eq, not_not] at hr
    simp [hr]
  · rw [hfetch]
    exact shardWalk_then_check_iff info.seq_no info.root_hash shard_chain.reverse
      (top_seq_no, top_root_hash)

/-- Witness for C2 at the spec's scenario S6: queried shard block at seq 7,
top shard block `(9, 109)`, fetched blocks 8 and 9 properly back-linked
(`root_hash` of block `n` is `100 + n`). -/
theorem check_shard_block_matches_claim_witness :
    (check_shard_block_from_anchor
        (fun lo hi =>
          if lo = 8 ∧ hi = 10 then
            .ok [⟨8, 108, 7, 107⟩, ⟨9, 109, 8, 108⟩]
          else
            .error .fetchFailed)
        ⟨7, 107, 6, 106⟩ 9 109 = .ok ()
      ↔ claimShardSuccess ⟨7, 107, 6, 106⟩ 9 109 [⟨8, 108, 7, 107⟩, ⟨9, 109, 8, 108⟩] = true) ∧
    claimShardSuccess ⟨7, 107, 6, 106⟩ 9 109 [⟨8, 108, 7, 107⟩, ⟨9, 109, 8, 108⟩] = true := by
  constructor
  · exact check_shard_block_matches_claim _ ⟨7, 107, 6, 106⟩ 9 109 _ (by rfl) (by decide)
  · decide

/-- One `preprocessGo` step on a row whose `seq_no` and `gen_utime` parse. -/
lemma preprocessGo_cons_some (b : Row) (rest : List Row) (res : List (Nat × Row))
    (ls lg sv gv : Nat) (hs : b.seq_no = some sv) (hg : b.gen_utime = some gv) :
    preprocessGo (b :: rest) res ls lg =
      (if sv % u32Size ≠ ls then
        preprocessGo rest (res ++ [(sv % u32Size, b)]) (sv % u32Size) (gv % u32Size)
      else if gv % u32Size > lg then
        match res.getLast? with
        | none => .error .panicIndexOutOfBounds
        | some last => preprocessGo rest (res.dropLast ++ [(last.1, b)]) ls (gv % u32Size)
      else preprocessGo rest res ls lg) := by
  simp only [preprocessGo, hs, hg]

/-- Unfolding of `bestRow` along the run. -/
lemma bestRow_cons (first b : Row) (t : List Row) :
    bestRow first (b :: t) = bestRow (if genValue b > genValue first then b else first) t := rfl

/-- The retained row of a run is a row of the run. -/
lemma bestRow_mem : ∀ (rest : List Row) (first : Row), bestRow first rest ∈ first :: rest := by
  intro rest
  induction rest with
  | nil =>
    intro first
    simp [bestRow]
  | cons b t ih =>
    intro first
    rw [bestRow_cons]
    rcases List.mem_cons.mp (ih (if genValue b > genValue first then b else first)) with h | h
    · rw [h]
      split
      · exact List.mem_cons_of_mem _ (List.mem_cons_self _ _)
      · exact List.mem_cons_self _ _
    · exact List.mem_cons_of_mem _ (List.mem_cons_of_mem _ h)

/-- The retained row of a run has maximal `gen_utime` within the run. -/
lemma genValue_le_bestRow :
    ∀ (rest : List Row) (first r : Row), r ∈ first :: rest →
      genValue r ≤ genValue (bestRow first rest) := by
  intro rest
  induction rest with
  | nil =>
    intro first r hr
    simp only [List.mem_singleton] at hr
    simp [bestRow, hr]
  | cons b t ih =>
    intro first r hr
    rw [bestRow_cons]
    have hfx : genValue first ≤ genValue (if genValue b > genValue first then b else first) := by
      split <;> omega
    have hbx : genValue b ≤ genValue (if genValue b > genValue first then b else first) := by
      split <;> omega
    have hx := ih (if genValue b > genValue first then b else first)
      (if genValue b > genValue first then b else first) (List.mem_cons_self _ _)
    rcases List.mem_cons.mp hr with h | h
    · exact le_trans (h ▸ hfx) hx
    · rcases List.mem_cons.mp h with h' | h'
      · exact le_trans (h' ▸ hbx) hx
      · exact ih _ r (List.mem_cons_of_mem _ h')

/-- Processing a whole run of rows sharing `seq_no = s`, starting right
after the first row of the run was pushed: the retained pair becomes the
run's best row and the rest of the input is processed from there. -/
lemma preprocessGo_run (s : Nat) (hs : s < u32Size) :
    ∀ (run : List Row), (∀ b ∈ run, b.seq_no = some s ∧ b.gen_utime.isSome) →
      ∀ (rest : List Row) (res : List (Nat × Row)) (r : Row),
      preprocessGo (run ++ rest) (res ++ [(s, r)]) s (genValue r)
        = preprocessGo rest (res ++ [(s, bestRow r run)]) s (genValue (bestRow r run)) := by
  intro run
  induction run with
  | nil =>
    intro _ rest res r
    simp [bestRow]
  | cons b t ih =>
    intro hb rest res r
    obtain ⟨hseq, hgen⟩ := hb b (List.mem_cons_self _ _)
    obtain ⟨gv, hgv⟩ := Option.isSome_iff_exists.mp hgen
    have hbgen : genValue b = gv % u32Size := by simp [genValue, hgv]
    rw [List.cons_append,
      preprocessGo_cons_some b (t ++ rest) (res ++ [(s, r)]) s (genValue r) s gv hseq hgv]
    simp only [Nat.mod_eq_of_lt hs]
    rw [if_neg (show ¬ s ≠ s by simp)]
    by_cases hcmp : gv % u32Size > genValue r
    · rw [if_pos hcmp, List.getLast?_concat, List.dropLast_concat]
      show preprocessGo (t ++ rest) (res ++ [(s, b)]) s (gv % u32Size) = _
      rw [← hbgen]
      rw [ih (fun x hx => hb x (List.mem_cons_of_mem _ hx)) rest res b]
      rw [bestRow_cons, if_pos (by omega : genValue b > genValue r)]
    · rw [if_neg hcmp]
      have step := ih (fun x hx => hb x (List.mem_cons_of_mem _ hx)) rest res r
      rw [step, bestRow_cons, if_neg (by omega : ¬ genValue b > genValue r)]

/-- Processing a grouped input run by run: with the previous `last_seq_no`
differing from the first run's key and adjacent run keys distinct, each run
contributes exactly its key paired with its best row. -/
lemma preprocessGo_runs :
    ∀ (runs : List (Nat × List Row)) (res : List (Nat × Row)) (ls lg : Nat),
      (∀ p ∈ runs, p.2 ≠ [] ∧ p.1 < u32Size ∧
        ∀ b ∈ p.2, b.seq_no = some p.1 ∧ b.gen_utime.isSome) →
      List.Chain' (· ≠ ·) (ls :: runs.map Prod.fst) →
      preprocessGo ((runs.map Prod.snd).flatten) res ls lg
        = .ok (res ++ runs.map (fun p => (p.1, bestRun p.2))) := by
  intro runs
  induction runs with
  | nil =>
    intro res ls lg _ _
    simp [preprocessGo]
  | cons p ps ih =>
    intro res ls lg hp hchain
    obtain ⟨hne, hlt, hrows⟩ := hp p (List.mem_cons_self _ _)
    obtain ⟨first, trest, hfp⟩ : ∃ f t, p.2 = f :: t := by
      cases hpt : p.2 with
      | nil => exact absurd hpt hne
      | cons f t => exact ⟨f, t, rfl⟩
    have hchain1 : ls ≠ p.1 := by
      have := hchain
      rw [List.map_cons, List.chain'_cons] at this
      exact this.1
    have hchain2 : List.Chain' (· ≠ ·) (p.1 :: ps.map Prod.fst) := by
      have := hchain
      rw [List.map_cons, List.chain'_cons] at this
      exact this.2
    obtain ⟨hfseq, hfgen⟩ := hrows first (by rw [hfp]; exact List.mem_cons_self _ _)
    obtain ⟨gv, hgv⟩ := Option.isSome_iff_exists.mp hfgen
    have hfgenv : genValue first = gv % u32Size := by simp [genValue, hgv]
    rw [List.map_cons, List.map_cons, List.flatten_cons, hfp, List.cons_append,
      preprocessGo_cons_some first (trest ++ (ps.map Prod.snd).flatten) res ls lg p.1 gv hfseq hgv]
    simp only [Nat.mod_eq_of_lt hlt]
    rw [if_pos (Ne.symm hchain1)]
    have hrun := preprocessGo_run p.1 hlt trest
      (fun x hx => hrows x (by rw [hfp]; exact List.mem_cons_of_mem _ hx))
      ((ps.map Prod.snd).flatten) res first
    rw [← hfgenv, hrun]
    rw [ih (res ++ [(p.1, bestRow first trest)]) p.1 (genValue (bestRow first trest))
      (fun x hx => hp x (List.mem_cons_of_mem _ hx)) hchain2]
    simp [bestRun, List.append_assoc]

/-- Once `result` is non-empty it stays non-empty, so no later row can
trigger the `result.len() - 1` underflow: processing any suffix of
well-formed rows from a non-empty accumulator succeeds. -/
lemma preprocessGo_no_panic :
    ∀ (blocks : List Row) (res : List (Nat × Row)) (ls lg : Nat),
      res ≠ [] → (∀ b ∈ blocks, b.seq_no.isSome ∧ b.gen_utime.isSome) →
      ∃ out, preprocessGo blocks res ls lg = .ok out := by
  intro blocks
  induction blocks with
  | nil =>
    intro res ls lg _ _
    exact ⟨res, rfl⟩
  | cons b rest ih =>
    intro res ls lg hres hint
    obtain ⟨hs, hg⟩ := hint b (List.mem_cons_self _ _)
    obtain ⟨sv, hsv⟩ := Option.isSome_iff_exists.mp hs
    obtain ⟨gv, hgv⟩ := Option.isSome_iff_exists.mp hg
    rw [preprocessGo_cons_some b rest res ls lg sv gv hsv hgv]
    by_cases h1 : sv % u32Size ≠ ls
    · rw [if_pos h1]
      exact ih _ _ _ (by simp) (fun x hx => hint x (List.mem_cons_of_mem _ hx))
    · rw [if_neg h1]
      by_cases h2 : gv % u32Size > lg
      · rw [if_pos h2]
        obtain ⟨last, hlast⟩ := Option.isSome_iff_exists.mp (List.getLast?_isSome.mpr hres)
        rw [hlast]
        exact ih _ _ _ (by simp) (fun x hx => hint x (List.mem_cons_of_mem _ hx))
      · rw [if_neg h2]
        exact ih _ _ _ hres (fun x hx => hint x (List.mem_cons_of_mem _ hx))

/-- C9 (amended): `preprocess_query_result` returns a result without
panicking provided every row carries integer `seq_no` and `gen_utime` and
the first row's `seq_no` (as `u32`) is non-zero; with a first row of
`seq_no = 0` the Rust code can compute the underflowing index
`result.len() - 1` (see the counterexample). -/
theorem preprocess_no_panic_nonzero_head (blocks : List Row)
    (hint : ∀ b ∈ blocks, b.seq_no.isSome ∧ b.gen_utime.isSome)
    (hhead : ∀ b, blocks.head? = some b → seqValue b ≠ 0) :
    ∃ out, preprocess_query_result blocks = .ok out := by
  cases blocks with
  | nil => exact ⟨[], rfl⟩
  | cons b rest =>
    obtain ⟨hs, hg⟩ := hint b (List.mem_cons_self _ _)
    obtain ⟨sv, hsv⟩ := Option.isSome_iff_exists.mp hs
    obtain ⟨gv, hgv⟩ := Option.isSome_iff_exists.mp hg
    rw [preprocess_query_result, preprocessGo_cons_some b rest [] 0 0 sv gv hsv hgv]
    have h0 : sv % u32Size ≠ 0 := by
      have := hhead b rfl
      simpa [seqValue, hsv] using this
    rw [if_pos h0]
    exact preprocessGo_no_panic rest ([] ++ [(sv % u32Size, b)]) (sv % u32Size) (gv % u32Size)
      (by simp) (fun x hx => hint x (List.mem_cons_of_mem _ hx))

/-- Witness for the amended C9 theorem at a one-row input with seq_no 3. -/
theorem preprocess_no_panic_nonzero_head_witness :
    ∃ out, preprocess_query_result [⟨some 3, some 1, none, none, 0⟩] = .ok out :=
  preprocess_no_panic_nonzero_head _ (by decide)
    (by
      intro b hb
      cases hb
      decide)

/-- Counterexample to C9 as stated: on the input whose first row has
`seq_no = 0` and `gen_utime = 1`, the loop takes the duplicate-`seq_no`
branch on its very first row (because `last_seq_no` is initialized to `0`)
and computes `result.len() - 1` with `result` still empty — a usize
underflow followed by an out-of-bounds index, i.e. a panic. -/
theorem preprocess_seq_no_zero_panic_counterexample :
    preprocess_query_result [⟨some 0, some 1, none, none, 0⟩]
      = .error .panicIndexOutOfBounds := by
  rfl

/-- C5 (amended): for inputs in which all rows of equal `seq_no` are
adjacent (given as a list of non-empty runs with pairwise-distinct keys, as
the seq_no-sorted indexer responses are), with integer fields and a first
key different from `0`, `preprocess_query_result` emits exactly one
`(seq_no, row)` pair per distinct `seq_no`, in the input's order of
distinct seq_nos, each carrying a row of that run with maximal
`gen_utime` (the first such row under ties). -/
theorem preprocess_dedup_grouped (runs : List (Nat × List Row))
    (hruns : ∀ p ∈ runs, p.2 ≠ [] ∧ p.1 < u32Size ∧
      ∀ b ∈ p.2, b.seq_no = some p.1 ∧ b.gen_utime.isSome)
    (hnodup : (runs.map Prod.fst).Nodup)
    (hfirst : ∀ p, runs.head? = some p → p.1 ≠ 0) :
    ∃ out, preprocess_query_result ((runs.map Prod.snd).flatten) = .ok out ∧
      out.map Prod.fst = runs.map Prod.fst ∧
      List.Forall₂
        (fun p q => q.1 = p.1 ∧ q.2 ∈ p.2 ∧ ∀ b ∈ p.2, genValue b ≤ genValue q.2)
        runs out := by
  refine ⟨runs.map (fun p => (p.1, bestRun p.2)), ?_, ?_, ?_⟩
  · have hchain : List.Chain' (· ≠ ·) (0 :: runs.map Prod.fst) := by
      rw [List.chain'_cons']
      refine ⟨?_, hnodup.chain'⟩
      intro y hy
      rw [List.head?_map] at hy
      cases hr : runs.head? with
      | none =>
        rw [hr] at hy
        exact absurd hy (by simp)
      | some p =>
        rw [hr] at hy
        simp only [Option.map_some', Option.mem_def, Option.some.injEq] at hy
        subst hy
        exact (hfirst p hr).symm
    have := preprocessGo_runs runs [] 0 0 hruns hchain
    simpa [preprocess_query_result] using this
  · simp [List.map_map, Function.comp]
  · rw [List.forall₂_map_right_iff]
    rw [List.forall₂_same]
    intro p hp
    obtain ⟨hne, _, hrows⟩ := hruns p hp
    obtain ⟨first, trest, hfp⟩ : ∃ f t, p.2 = f :: t := by
      cases hpt : p.2 with
      | nil => exact absurd hpt hne
      | cons f t => exact ⟨f, t, rfl⟩
    refine ⟨rfl, ?_, ?_⟩
    · rw [hfp]
      exact bestRow_mem trest first
    · intro b hb
      rw [hfp] at hb
      rw [hfp]
      exact genValue_le_bestRow trest first b hb

/-- Witness for the amended C5 theorem on two runs: seq_no 5 with two fork
rows (gen_utime 1 and 3) followed by seq_no 6. -/
theorem preprocess_dedup_grouped_witness :
    ∃ out, preprocess_query_result
        ((([(5, [⟨some 5, some 1, none, none, 0⟩, ⟨some 5, some 3, none, none, 1⟩]),
            (6, [⟨some 6, some 2, none, none, 2⟩])] : List (Nat × List Row)).map Prod.snd).flatten)
        = .ok out ∧
      out.map Prod.fst
        = ([(5, [⟨some 5, some 1, none, none, 0⟩, ⟨some 5, some 3, none, none, 1⟩]),
            (6, [⟨some 6, some 2, none, none, 2⟩])] : List (Nat × List Row)).map Prod.fst ∧
      List.Forall₂
        (fun p q => q.1 = p.1 ∧ q.2 ∈ p.2 ∧ ∀ b ∈ p.2, genValue b ≤ genValue q.2)
        [(5, [⟨some 5, some 1, none, none, 0⟩, ⟨some 5, some 3, none, none, 1⟩]),
         (6, [⟨some 6, some 2, none, none, 2⟩])] out :=
  preprocess_dedup_grouped _ (by decide) (by decide)
    (by
      intro p hp
      cases hp
      decide)

/-- Counterexample to C5 as stated: on the input with seq_nos 5, 6, 5 (the
two rows for seq_no 5 not adjacent), `preprocess_query_result` emits two
pairs for seq_no 5 — the dedup only merges adjacent rows. -/
theorem preprocess_dedup_counterexample :
    preprocess_query_result
        [⟨some 5, some 1, none, none, 0⟩, ⟨some 6, some 1, none, none, 1⟩,
         ⟨some 5, some 2, none, none, 2⟩]
      = .ok [(5, ⟨some 5, some 1, none, none, 0⟩), (6, ⟨some 6, some 1, none, none, 1⟩),
             (5, ⟨some 5, some 2, none, none, 2⟩)] ∧
    Except.map (fun out => (out.map Prod.fst).count 5)
        (preprocess_query_result
          [⟨some 5, some 1, none, none, 0⟩, ⟨some 6, some 1, none, none, 1⟩,
           ⟨some 5, some 2, none, none, 2⟩])
      = .ok 2 := by
  constructor
  · rfl
  · rfl

/-- With an indexer response that stays empty, one `add_file_hashes` round
consumes no proofs, so the loop never reaches its exit condition. -/
lemma add_file_hashes_go_empty_oracle :
    ∀ (fuel : Nat) (done proofs : List (Nat × PValue)), proofs ≠ [] →
      add_file_hashes_go (fun _ => []) fuel done proofs = none := by
  intro fuel
  induction fuel with
  | zero =>
    intro done proofs _
    rfl
  | succ n ih =>
    intro done proofs hne
    cases proofs with
    | nil => exact absurd rfl hne
    | cons p ps =>
      show add_file_hashes_go (fun _ => []) n (done ++ []) ((p :: ps).drop 0) = none
      exact ih (done ++ []) (p :: ps) (by simp)

/-- Counterexample to C3 as stated: with the indexer persistently returning
no matched next-blocks at all (as when the requested range extends to the
chain head and the chain never advances), `add_file_hashes` on the
non-empty proof list `[(10, …)]` never terminates — instead of returning
success and leaving the tail unattached, it re-issues the same query in an
unbounded loop. -/
theorem add_file_hashes_empty_response_counterexample :
    ¬ add_file_hashes_terminates (fun _ => []) [(10, ⟨none, 0⟩)] := by
  rintro ⟨fuel, r, h⟩
  rw [add_file_hashes,
    add_file_hashes_go_empty_oracle fuel [] [(10, ⟨none, 0⟩)] (by simp)] at h
  exact Option.noConfusion h

/-- A positionally matched round of file-hash attachment succeeds. -/
lemma attachRound_forall₂_ok {es : List (Nat × PValue)} {bs : List (Nat × Row)}
    (h : List.Forall₂ (fun p b => b.1 = (p.1 + 1) % u32Size) es bs) :
    ∃ out, attachRound es bs = .ok out := by
  induction h with
  | nil => exact ⟨[], rfl⟩
  | cons hr _ ih =>
    obtain ⟨out, hout⟩ := ih
    simp only [attachRound]
    rw [if_neg (fun hne => hne hr), hout]
    exact ⟨_, rfl⟩

/-- A round with a positional `seq_no` mismatch fails with the
"Block … missed on DApp server" error. -/
lemma attachRound_error :
    ∀ (es : List (Nat × PValue)) (bs : List (Nat × Row)), es.length = bs.length →
      (∃ i, ∃ h1 : i < bs.length, ∃ h2 : i < es.length,
        (bs.get ⟨i, h1⟩).1 ≠ ((es.get ⟨i, h2⟩).1 + 1) % u32Size) →
      attachRound es bs = .error .blockMissed := by
  intro es
  induction es with
  | nil =>
    intro bs _ hmis
    obtain ⟨i, _, h2, _⟩ := hmis
    exact absurd h2 (by simp)
  | cons e es' ih =>
    intro bs hlen hmis
    cases bs with
    | nil =>
      obtain ⟨i, h1, _, _⟩ := hmis
      exact absurd h1 (by simp)
    | cons b bs' =>
      simp only [attachRound]
      by_cases h0 : b.1 = (e.1 + 1) % u32Size
      · rw [if_neg (fun hne => hne h0)]
        have herr : attachRound es' bs' = .error .blockMissed := by
          apply ih bs' (by simpa using hlen)
          obtain ⟨i, h1, h2, hm⟩ := hmis
          cases i with
          | zero => exact absurd h0 hm
          | succ j =>
            refine ⟨j, ?_, ?_, ?_⟩
            · simp only [List.length_cons] at h1
              omega
            · simp only [List.length_cons] at h2
              omega
            · simpa using hm
        rw [herr]
        rfl
      · rw [if_pos h0]

/-- C4: within any `add_file_hashes` round (entered with a non-empty
remaining proof list and a successfully deduplicated indexer response
`bs`), the function fails with the "more blocks than expected" error when
`bs` is longer than the remaining proofs, and with the "block missed" error
when the next-block at some position `i` has `seq_no` different from
`proofs[i].seq_no + 1`. -/
theorem add_file_hashes_mismatch_errors (oracle : List Nat → List Row) (fuel : Nat)
    (done proofs : List (Nat × PValue)) (bs : List (Nat × Row))
    (hne : proofs ≠ [])
    (hok : preprocess_query_result (oracle (proofs.map (fun p => (p.1 + 1) % u32Size)))
      = .ok bs) :
    (proofs.length < bs.length →
      add_file_hashes_go oracle (fuel + 1) done proofs
        = some (.error .moreBlocksThanExpected)) ∧
    (bs.length ≤ proofs.length →
      (∃ i, ∃ h1 : i < bs.length, ∃ h2 : i < proofs.length,
        (bs.get ⟨i, h1⟩).1 ≠ ((proofs.get ⟨i, h2⟩).1 + 1) % u32Size) →
      add_file_hashes_go oracle (fuel + 1) done proofs = some (.error .blockMissed)) := by
  cases proofs with
  | nil => exact absurd rfl hne
  | cons p ps =>
    constructor
    · intro hlt
      simp only [add_file_hashes_go, List.isEmpty_cons, Bool.false_eq_true, if_false, hok]
      rw [if_pos hlt]
    · intro hle hmis
      simp only [add_file_hashes_go, List.isEmpty_cons, Bool.false_eq_true, if_false, hok]
      rw [if_neg (not_lt.mpr hle)]
      have herr : attachRound ((p :: ps).take bs.length) bs = .error .blockMissed := by
        apply attachRound_error
        · rw [List.length_take]
          omega
        · obtain ⟨i, h1, h2, hm⟩ := hmis
          refine ⟨i, h1, ?_, ?_⟩
          · rw [List.length_take]
            omega
          · simpa [List.getElem_take] using hm
      rw [herr]

/-- Witness for C4: a single proof at seq_no 5; an indexer response with
two matched next-blocks trips the "more than expected" error, and a
response whose only block has seq_no 7 instead of 6 trips the "block
missed" error. -/
theorem add_file_hashes_mismatch_errors_witness :
    add_file_hashes_go
        (fun _ => [⟨some 6, some 1, none, some 9, 0⟩, ⟨some 7, some 1, none, some 9, 1⟩])
        1 [] [(5, ⟨none, 0⟩)] = some (.error .moreBlocksThanExpected) ∧
    add_file_hashes_go (fun _ => [⟨some 7, some 1, none, some 9, 0⟩])
        1 [] [(5, ⟨none, 0⟩)] = some (.error .blockMissed) := by
  constructor
  · exact (add_file_hashes_mismatch_errors _ 0 [] [(5, ⟨none, 0⟩)]
      [(6, ⟨some 6, some 1, none, some 9, 0⟩), (7, ⟨some 7, some 1, none, some 9, 1⟩)]
      (by simp) (by rfl)).1 (by decide)
  · exact (add_file_hashes_mismatch_errors _ 0 [] [(5, ⟨none, 0⟩)]
      [(7, ⟨some 7, some 1, none, some 9, 0⟩)]
      (by simp) (by rfl)).2 (by decide) ⟨0, by decide, by decide, by decide⟩

/-- Under the progress property, each round consumes at least one proof, so
`proofs.length` rounds of fuel suffice for the loop to exit with success. -/
lemma add_file_hashes_go_progress (oracle : List Nat → List Row)
    (proofs0 : List (Nat × PValue)) (hprog : oracleProgress oracle proofs0) :
    ∀ (n k : Nat) (done : List (Nat × PValue)),
      (proofs0.drop k).length ≤ n →
      ∃ out, add_file_hashes_go oracle (n + 1) done (proofs0.drop k) = some (.ok out) := by
  intro n
  induction n with
  | zero =>
    intro k done hlen
    rw [List.eq_nil_of_length_eq_zero (Nat.le_zero.mp hlen)]
    exact ⟨done, rfl⟩
  | succ m ih =>
    intro k done hlen
    by_cases hemp : proofs0.drop k = []
    · rw [hemp]
      exact ⟨done, rfl⟩
    · obtain ⟨bs, hok, hbne, hble, hmatch⟩ := hprog k hemp
      obtain ⟨att, hatt⟩ := attachRound_forall₂_ok hmatch
      obtain ⟨p, ps, hcons⟩ : ∃ p ps, proofs0.drop k = p :: ps := by
        cases hd : proofs0.drop k with
        | nil => exact absurd hd hemp
        | cons p ps => exact ⟨p, ps, rfl⟩
      rw [hcons] at hok hble hatt
      rw [hcons]
      simp only [add_file_hashes_go, List.isEmpty_cons, Bool.false_eq_true, if_false, hok]
      rw [if_neg (not_lt.mpr hble), hatt]
      rw [← hcons, List.drop_drop]
      exact ih (k + bs.length) (done ++ att)
        (by
          simp only [List.length_drop] at hlen ⊢
          have hbs1 : 1 ≤ bs.length := by
            cases bs with
            | nil => exact absurd rfl hbne
            | cons x xs => simp
          omega)

/-- C3 (amended): when every reachable round's deduplicated indexer
response is non-empty, no longer than the remaining proofs and positionally
matched — in particular when the response is never empty while proofs
remain — `add_file_hashes` terminates and returns success within
`proofs.length` rounds, attaching file hashes to all proofs along the way;
when instead a round's response is empty for a non-empty remainder, the
loop re-queries forever (see the counterexample). -/
theorem add_file_hashes_terminates_with_progress (oracle : List Nat → List Row)
    (proofs : List (Nat × PValue)) (hprog : oracleProgress oracle proofs) :
    ∃ out, add_file_hashes oracle (proofs.length + 1) proofs = some (.ok out) := by
  have h := add_file_hashes_go_progress oracle proofs hprog proofs.length 0 [] (by simp)
  simpa [add_file_hashes] using h

/-- Witness for the amended C3 theorem: one proof at seq_no 5 and an
indexer that answers each query on its first requested seq_no. -/
theorem add_file_hashes_terminates_with_progress_witness :
    ∃ out, add_file_hashes
        (fun seqs =>
          match seqs with
          | s :: _ => [⟨some s, some 1, none, some 99, 0⟩]
          | [] => [])
        2 [(5, ⟨none, 0⟩)] = some (.ok out) :=
  add_file_hashes_terminates_with_progress _ [(5, ⟨none, 0⟩)]
    (by
      intro k hk
      match k, hk with
      | 0, _ =>
        refine ⟨[(6, ⟨some 6, some 1, none, some 99, 0⟩)], by rfl, by simp, by simp, ?_⟩
        exact List.Forall₂.cons (by rfl) List.Forall₂.nil
      | n + 1, hk => exact absurd (List.drop_eq_nil_of_le (by simp)) hk)

end TonSdkProofs
